import Mathlib

/-!
Verification of the data-structure collection: shallow embeddings of the
Python sources under `DSA/Data Structure/` (min-heap, binary search tree,
chained hash map, and the adjacency-list graph with path enumeration),
together with proofs of the behavioural properties stated for them.

Conventions of the embedding:
* Python lists of ints become `List Int`; out-of-range reads use the
  default value `0` (every read performed by the embedded algorithms is
  in range whenever the corresponding Python read is).
* Python `None` results become `Option.none`.
* The graph path enumeration in the source recurses without any cycle
  guard and so need not terminate; it is embedded with an explicit fuel
  parameter, `none` standing for a computation that did not finish
  within the given fuel.
* Hash-map keys are modelled as `Nat`, for which CPython's `hash` is the
  identity (small non-negative ints), so `_hash(key) = key % size`.
-/

namespace PyGraph

/-- Python `dict[str, list[str]]` in insertion order, as an association list. -/
abbrev Dict := List (String × List String)

/-- One `graph_dict` update step of the `Graph` constructor: append to the
neighbour list of an existing key, otherwise add a fresh binding at the end. -/
def addEdge : Dict → String → String → Dict
  | [], s, e => [(s, [e])]
  | (k, vs) :: rest, s, e =>
    if k = s then (k, vs ++ [e]) :: rest else (k, vs) :: addEdge rest s e

/-- The `Graph.__init__` loop over `edges`. -/
def buildDict (edges : List (String × String)) : Dict :=
  edges.foldl (fun d p => addEdge d p.1 p.2) []

/-- Python dict lookup (`graph_dict[s]` guarded by `s in graph_dict`). -/
def dictGet : Dict → String → Option (List String)
  | [], _ => none
  | (k, vs) :: rest, s => if k = s then some vs else dictGet rest s

/-- The fixed 6-edge `routes` list of the source file. -/
def routes : List (String × String) :=
  [("Mumbai", "Paris"),
   ("Mumbai", "Dubai"),
   ("Paris", "Dubai"),
   ("Paris", "New York"),
   ("Dubai", "New York"),
   ("New York", "Toronto")]

/-- Python `graph.graph_dict` for the sample graph `Graph(routes)`. -/
def sampleDict : Dict := buildDict routes

/-- The `for node in self.graph_dict[start]` loop of `get_all_paths`:
accumulate the recursive results (`temp_paths += [p]`), propagating
fuel exhaustion of any recursive call. -/
def collect (f : String → Option (List (List String))) :
    List String → Option (List (List String))
  | [] => some []
  | node :: rest =>
    match f node, collect f rest with
    | some ps, some qs => some (ps ++ qs)
    | _, _ => none

/-- Python `Graph.get_all_paths(start, stop, path)` with an explicit fuel bound on
the recursion depth; `none` means the source recursion would not have
returned within that depth (it has no cycle guard). -/
def get_all_paths (g : Dict) : Nat → String → String → List String →
    Option (List (List String))
  | 0, _, _, _ => none
  | fuel + 1, start, stop, path0 =>
    let path := path0 ++ [start]
    if start = stop then some [path]
    else
      match dictGet g start with
      | none => some []
      | some nbrs =>
        if nbrs.length = 0 then some []
        else collect (fun node => get_all_paths g fuel node stop path) nbrs

/-- The argmin loop of `find_shortest_path`: starting from the first path,
replace the candidate whenever a strictly shorter path appears. -/
def pickShortest (best : List String) : List (List String) → List String
  | [] => best
  | q :: qs => if q.length < best.length then pickShortest q qs else pickShortest best qs

/-- Python `Graph.find_shortest_path(start, stop)` (fuel is passed through to the
embedded `get_all_paths`). -/
def find_shortest_path (g : Dict) (fuel : Nat) (start stop : String) :
    Option (List String) :=
  if start = stop then some []
  else
    match get_all_paths g fuel start stop [] with
    | none => none
    | some all_paths =>
      match all_paths with
      | [] => some []
      | p :: ps => some (pickShortest p ps)

/-- Reachability along the adjacency lists of `g` (reflexive). -/
inductive Reaches (g : Dict) : String → String → Prop
  | refl (s : String) : Reaches g s s
  | step {a c : String} (b : String) (hb : b ∈ (dictGet g a).getD [])
      (h : Reaches g b c) : Reaches g a c

end PyGraph

namespace PyBST

/-- A Python `BST` object reference: `nil` stands for `None`, and a `BST`
instance is a `node` with its `left`, `data` and `right` fields. -/
inductive Tree where
  | nil : Tree
  | node : Tree → Int → Tree → Tree
deriving DecidableEq

/-- Python `BST.insert(data)`. The leading `if not data: return` is Python
truthiness on an int, i.e. a no-op exactly when `data == 0`; `if self.left:`
tests the reference against `None`. `insert` on `nil` never occurs in the
source (the method runs on an instance) and is the identity here. -/
def insert : Tree → Int → Tree
  | Tree.nil, _ => Tree.nil
  | Tree.node l x r, d =>
    if d = 0 then Tree.node l x r
    else if x = d then Tree.node l x r
    else if d < x then
      match l with
      | Tree.nil => Tree.node (Tree.node Tree.nil d Tree.nil) x r
      | Tree.node _ _ _ => Tree.node (insert l d) x r
    else
      match r with
      | Tree.nil => Tree.node l x (Tree.node Tree.nil d Tree.nil)
      | Tree.node _ _ _ => Tree.node l x (insert r d)

/-- Python `BST.inorder()`: the sequence of values printed by the traversal. -/
def inorder : Tree → List Int
  | Tree.nil => []
  | Tree.node l x r => inorder l ++ x :: inorder r

/-- Python `BST(data)`: a fresh root node. -/
def mkBST (data : Int) : Tree := Tree.node Tree.nil data Tree.nil

/-- The binary-search-tree invariant of the data model: left values below
the node value, right values above. -/
def IsBST : Tree → Prop
  | Tree.nil => True
  | Tree.node l x r =>
      IsBST l ∧ IsBST r ∧ (∀ y ∈ inorder l, y < x) ∧ (∀ y ∈ inorder r, x < y)

def decIsBST : (t : Tree) → Decidable (IsBST t)
  | Tree.nil => isTrue trivial
  | Tree.node l x r =>
    have : Decidable (IsBST l) := decIsBST l
    have : Decidable (IsBST r) := decIsBST r
    inferInstanceAs (Decidable (_ ∧ _ ∧ _ ∧ _))

attribute [instance] decIsBST

end PyBST

namespace PyHashMap

/-- A chain node: `key`, `value` (the `next` link is the tail of the chain list). -/
structure Node where
  key : Nat
  value : Int
deriving DecidableEq

/-- A bucket's linked chain; Python `None` head is the empty list. -/
abbrev Chain := List Node

/-- Python `HashMap(size)` state: the fixed bucket count and the bucket array. -/
structure HashMap where
  size : Nat
  buckets : List Chain
deriving DecidableEq

/-- CPython `hash` on the modelled key domain (small non-negative ints). -/
def hashOf (k : Nat) : Nat := k

/-- Python `HashMap._hash(key)`. -/
def hmHash (m : HashMap) (k : Nat) : Nat := hashOf k % m.size

/-- Python `HashMap(size)`: all buckets start as `None`. -/
def mkHashMap (size : Nat) : HashMap := ⟨size, List.replicate size []⟩

/-- The bucket chain at index `i` (`self.buckets[index]`). -/
def bucket (m : HashMap) (i : Nat) : Chain := m.buckets.getD i []

/-- The traversal of `put`: overwrite the value of the first node whose key
matches, returning `none` when no node matches. -/
def putChain : Chain → Nat → Int → Option Chain
  | [], _, _ => none
  | n :: rest, k, v =>
    if n.key = k then some ({ n with value := v } :: rest)
    else
      match putChain rest k v with
      | some c => some (n :: c)
      | none => none

/-- Python `HashMap.put(key, value)`: overwrite on key match, else prepend a new node. -/
def put (m : HashMap) (k : Nat) (v : Int) : HashMap :=
  let index := hmHash m k
  match putChain (bucket m index) k v with
  | some c => ⟨m.size, m.buckets.set index c⟩
  | none => ⟨m.size, m.buckets.set index (⟨k, v⟩ :: bucket m index)⟩

/-- The while-loop of `get`: NOTE the comparison is `current.key == index`,
the bucket index, exactly as in the source (the key/index bug). -/
def getChain : Chain → Nat → Option Int
  | [], _ => none
  | n :: rest, index => if n.key = index then some n.value else getChain rest index

/-- Python `HashMap.get(key)`. -/
def get (m : HashMap) (k : Nat) : Option Int :=
  getChain (bucket m (hmHash m k)) (hmHash m k)

/-- The traversal of `remove`: unlink the first node whose key matches,
`none` when no node matches. -/
def removeChain : Chain → Nat → Option Chain
  | [], _ => none
  | n :: rest, k =>
    if n.key = k then some rest
    else
      match removeChain rest k with
      | some c => some (n :: c)
      | none => none

/-- Python `HashMap.remove(key)`: the updated map and the returned boolean. -/
def remove (m : HashMap) (k : Nat) : HashMap × Bool :=
  let index := hmHash m k
  match removeChain (bucket m index) k with
  | some c => (⟨m.size, m.buckets.set index c⟩, true)
  | none => (m, false)

/-- The spec's description of what the buggy `get` computes: the value of the
first node in bucket `hash(k)` whose stored key equals that bucket index. -/
def getSpecFirstIndexMatch (m : HashMap) (k : Nat) : Option Int :=
  ((bucket m (hmHash m k)).find? (fun n => n.key == hmHash m k)).map Node.value

/-- Keys stored along a chain, in chain order. -/
def chainKeys (c : Chain) : List Nat := c.map Node.key

/-- Apply `put` to every pair of `kvs` in order, starting from `m`. -/
def putAll (m : HashMap) (kvs : List (Nat × Int)) : HashMap :=
  kvs.foldl (fun acc p => put acc p.1 p.2) m

/-- Apply `remove` to every key of `ks` in order, starting from `m`. -/
def removeAll (m : HashMap) (ks : List Nat) : HashMap :=
  ks.foldl (fun acc k => (remove acc k).1) m

end PyHashMap

namespace MinHeap

/-- Python `MinHeap.parent(index)` exactly as written in the source, including its
`index < 3` special case (which agrees with `(index - 1) // 2` for 1 and 2). -/
def parent (index : Nat) : Nat := if index < 3 then 0 else (index - 1) / 2

/-- Python `MinHeap.leftChild(index)`. -/
def leftChild (index : Nat) : Nat := 2 * index + 1

/-- Python `MinHeap.rightChild(index)`. -/
def rightChild (index : Nat) : Nat := 2 * index + 2

/-- Python `self.heap[i]` (all reads the algorithms perform are in range; out of
range reads default to 0). -/
def nth (h : List Int) (i : Nat) : Int := h.getD i 0

/-- The Python tuple swap `h[i], h[j] = h[j], h[i]`. -/
def swap (h : List Int) (i j : Nat) : List Int := (h.set i (nth h j)).set j (nth h i)

/-- The `while new_child_index > 0` sift-up loop of `insert`. -/
def siftUp (h : List Int) (j : Nat) : List Int :=
  if hj : 0 < j then
    if nth h (parent j) > nth h j then siftUp (swap h (parent j) j) (parent j)
    else h
  else h
termination_by j
decreasing_by
  simp only [parent]
  split
  · omega
  · omega

/-- Python `MinHeap.insert(key)`: append, then sift up from the last index. -/
def insert (h : List Int) (key : Int) : List Int :=
  siftUp (h ++ [key]) h.length

/-- One round of the `extract_min` bubble-down: `smallest` after the two
sequential comparisons with the left and the right child. -/
def smallestIdx (h : List Int) (i : Nat) : Nat :=
  if rightChild i < h.length ∧
      nth h (rightChild i) <
        nth h (if leftChild i < h.length ∧ nth h (leftChild i) < nth h i
               then leftChild i else i)
  then rightChild i
  else if leftChild i < h.length ∧ nth h (leftChild i) < nth h i
       then leftChild i else i

/-- The `while True` bubble-down loop of `extract_min`. -/
def siftDown (h : List Int) (i : Nat) : List Int :=
  if hne : smallestIdx h i ≠ i then
    siftDown (swap h i (smallestIdx h i)) (smallestIdx h i)
  else h
termination_by h.length - i
decreasing_by
  simp only [swap, List.length_set]
  revert hne
  simp only [smallestIdx, leftChild, rightChild]
  by_cases h1 : 2 * i + 1 < h.length ∧ nth h (2 * i + 1) < nth h i
  · rw [if_pos h1]
    by_cases h2 : 2 * i + 2 < h.length ∧ nth h (2 * i + 2) < nth h (2 * i + 1)
    · rw [if_pos h2]
      intro _
      omega
    · rw [if_neg h2]
      intro _
      have := h1.1
      omega
  · rw [if_neg h1]
    by_cases h2 : 2 * i + 2 < h.length ∧ nth h (2 * i + 2) < nth h i
    · rw [if_pos h2]
      intro _
      omega
    · rw [if_neg h2]
      intro hne
      exact absurd rfl hne

/-- Python `MinHeap.extract_min()`: `none` on the empty heap, pop on the singleton,
otherwise save the root, move the popped last element to the root and bubble
down; returns the saved previous root together with the updated heap array. -/
def extract_min (h : List Int) : Option Int × List Int :=
  match h with
  | [] => (none, [])
  | [x] => (some x, [])
  | x :: y :: rest =>
    (some x, siftDown (((x :: y :: rest).dropLast).set 0 ((y :: rest).getLastD 0)) 0)

/-- A fresh `MinHeap()` followed by `insert` of each element in order. -/
def buildHeap (xs : List Int) : List Int := xs.foldl insert []

/-- Python `extract_min` called `n` times, collecting the returned values. -/
def extractList : Nat → List Int → List Int
  | 0, _ => []
  | n + 1, h =>
    match extract_min h with
    | (some v, h') => v :: extractList n h'
    | (none, _) => []

/-- The min-heap invariant of the array representation: every element is at
least its parent. -/
def IsMinHeap (h : List Int) : Prop :=
  ∀ j, j < h.length → 0 < j → nth h (parent j) ≤ nth h j

def decIsMinHeap : (h : List Int) → Decidable (IsMinHeap h) := fun h =>
  inferInstanceAs (Decidable (∀ j, j < h.length → 0 < j → nth h (parent j) ≤ nth h j))

attribute [instance] decIsMinHeap

/-- Sift-up loop invariant: the heap property can fail only on the edge into
`j`, and the parent of `j` already bounds every child of `j`. -/
def UpInv (h : List Int) (j : Nat) : Prop :=
  (∀ k, k < h.length → 0 < k → k ≠ j → nth h (parent k) ≤ nth h k) ∧
  (∀ c, c < h.length → 0 < c → parent c = j → 0 < j → nth h (parent j) ≤ nth h c)

/-- Sift-down loop invariant: the heap property can fail only on the edges
leaving `i`, and the parent of `i` bounds every child of `i`. -/
def DownInv (h : List Int) (i : Nat) : Prop :=
  (∀ k, k < h.length → 0 < k → parent k ≠ i → nth h (parent k) ≤ nth h k) ∧
  (∀ c, c < h.length → 0 < c → parent c = i → 0 < i → nth h (parent i) ≤ nth h c)

end MinHeap

/-! Theorems and supporting lemmas. -/

namespace PyGraph

example : sampleDict =
    [("Mumbai", ["Paris", "Dubai"]),
     ("Paris", ["Dubai", "New York"]),
     ("Dubai", ["New York"]),
     ("New York", ["Toronto"])] := by decide

example : get_all_paths sampleDict 10 "Mumbai" "New York" [] =
    some [["Mumbai", "Paris", "Dubai", "New York"],
          ["Mumbai", "Paris", "New York"],
          ["Mumbai", "Dubai", "New York"]] := by decide

example : find_shortest_path sampleDict 10 "Mumbai" "New York" =
    some ["Mumbai", "Paris", "New York"] := by decide

theorem collect_mono {f f' : String → Option (List (List String))}
    (hff' : ∀ x r, f x = some r → f' x = some r) :
    ∀ l r, collect f l = some r → collect f' l = some r := by
  intro l
  induction l with
  | nil => intro r hr; simpa [collect] using hr
  | cons node rest ih =>
    intro r hr
    simp only [collect] at hr ⊢
    cases hfn : f node with
    | none => rw [hfn] at hr; simp at hr
    | some ps =>
      rw [hfn] at hr
      cases hcr : collect f rest with
      | none => rw [hcr] at hr; simp at hr
      | some qs =>
        rw [hcr] at hr
        simp only at hr
        rw [hff' node ps hfn, ih qs hcr]
        exact hr

theorem gap_mono (g : Dict) (stop : String) :
    ∀ fuel start path r, get_all_paths g fuel start stop path = some r →
      get_all_paths g (fuel + 1) start stop path = some r := by
  intro fuel
  induction fuel with
  | zero => intro start path r hr; simp [get_all_paths] at hr
  | succ n ih =>
    intro start path r hr
    simp only [get_all_paths] at hr ⊢
    by_cases hse : start = stop
    · simpa [hse] using hr
    · simp only [hse, if_false] at hr ⊢
      cases hd : dictGet g start with
      | none => rw [hd] at hr; simpa using hr
      | some nbrs =>
        rw [hd] at hr
        simp only at hr ⊢
        by_cases hlen : nbrs.length = 0
        · simpa [hlen] using hr
        · simp only [hlen, if_false] at hr ⊢
          exact collect_mono (fun x r' h' => ih x _ r' h') nbrs r hr

theorem gap_mono_le (g : Dict) (stop : String) {m n : Nat} (hmn : m ≤ n) :
    ∀ start path r, get_all_paths g m start stop path = some r →
      get_all_paths g n start stop path = some r := by
  induction n with
  | zero =>
    intro start path r hr
    have : m = 0 := Nat.le_zero.mp hmn
    simpa [this] using hr
  | succ k ih =>
    intro start path r hr
    rcases Nat.lt_or_ge m (k + 1) with hlt | hge
    · exact gap_mono g stop k start path r (ih (Nat.lt_succ_iff.mp hlt) start path r hr)
    · have : m = k + 1 := Nat.le_antisymm hmn hge
      simpa [this] using hr

theorem collect_all_nil {f : String → Option (List (List String))} :
    ∀ l, (∀ x ∈ l, ∀ r', f x = some r' → r' = []) →
      ∀ r, collect f l = some r → r = [] := by
  intro l
  induction l with
  | nil => intro _ r hr; simpa [collect] using hr.symm
  | cons node rest ih =>
    intro hall r hr
    simp only [collect] at hr
    cases hfn : f node with
    | none => rw [hfn] at hr; simp at hr
    | some ps =>
      rw [hfn] at hr
      cases hcr : collect f rest with
      | none => rw [hcr] at hr; simp at hr
      | some qs =>
        rw [hcr] at hr
        simp only [Option.some.injEq] at hr
        have hps : ps = [] := hall node (by simp) ps hfn
        have hqs : qs = [] := ih (fun x hx => hall x (by simp [hx])) qs hcr
        rw [← hr, hps, hqs]; rfl

theorem gap_unreachable (g : Dict) (stop : String) :
    ∀ fuel start path r, ¬ Reaches g start stop →
      get_all_paths g fuel start stop path = some r → r = [] := by
  intro fuel
  induction fuel with
  | zero => intro start path r _ hr; simp [get_all_paths] at hr
  | succ n ih =>
    intro start path r hnr hr
    have hse : start ≠ stop := by
      intro h; exact hnr (h ▸ Reaches.refl start)
    simp only [get_all_paths, hse, if_false] at hr
    cases hd : dictGet g start with
    | none => rw [hd] at hr; simpa using hr.symm
    | some nbrs =>
      rw [hd] at hr
      simp only at hr
      by_cases hlen : nbrs.length = 0
      · simpa [hlen] using hr.symm
      · simp only [hlen, if_false] at hr
        refine collect_all_nil nbrs ?_ r hr
        intro b hb r' hr'
        have hnb : ¬ Reaches g b stop := by
          intro hrb
          exact hnr (Reaches.step b (by simp [hd, hb]) hrb)
        exact ih b _ r' hnb hr'

theorem pickShortest_spec (ps : List (List String)) :
    ∀ best, pickShortest best ps ∈ best :: ps ∧
      (pickShortest best ps).length ≤ best.length ∧
      ∀ q ∈ ps, (pickShortest best ps).length ≤ q.length := by
  induction ps with
  | nil => intro best; simp [pickShortest]
  | cons q qs ih =>
    intro best
    simp only [pickShortest]
    by_cases hq : q.length < best.length
    · simp only [hq, if_true]
      obtain ⟨hmem, hle, hall⟩ := ih q
      refine ⟨?_, ?_, ?_⟩
      · rcases List.mem_cons.mp hmem with h | h
        · exact List.mem_cons.mpr (Or.inr (List.mem_cons.mpr (Or.inl h)))
        · exact List.mem_cons.mpr (Or.inr (List.mem_cons.mpr (Or.inr h)))
      · exact Nat.le_trans hle (Nat.le_of_lt hq)
      · intro p hp
        rcases List.mem_cons.mp hp with h | h
        · exact h ▸ hle
        · exact hall p h
    · simp only [hq, if_false]
      obtain ⟨hmem, hle, hall⟩ := ih best
      refine ⟨?_, hle, ?_⟩
      · rcases List.mem_cons.mp hmem with h | h
        · exact List.mem_cons.mpr (Or.inl h)
        · exact List.mem_cons.mpr (Or.inr (List.mem_cons.mpr (Or.inr h)))
      · intro p hp
        rcases List.mem_cons.mp hp with h | h
        · exact h ▸ Nat.le_trans hle (Nat.le_of_not_lt hq)
        · exact hall p h

theorem not_reaches_of_no_nbrs {g : Dict} {a b : String} (hab : a ≠ b)
    (hd : (dictGet g a).getD [] = []) : ¬ Reaches g a b := by
  intro h
  cases h with
  | refl => exact hab rfl
  | step c hc _ => rw [hd] at hc; exact absurd hc (List.not_mem_nil c)

theorem not_reaches_toronto_mumbai : ¬ Reaches sampleDict "Toronto" "Mumbai" :=
  not_reaches_of_no_nbrs (by decide) (by decide)

/-- C7: on the Graph built from the fixed 6-edge routes list, for every
sufficient fuel, `get_all_paths "Mumbai" "New York"` returns exactly the three
paths Mumbai→Paris→Dubai→New York, Mumbai→Paris→New York, Mumbai→Dubai→New York,
in that order, and no others. -/
theorem sample_all_paths_mumbai_newyork (k : Nat) :
    get_all_paths sampleDict (k + 4) "Mumbai" "New York" [] =
      some [["Mumbai", "Paris", "Dubai", "New York"],
            ["Mumbai", "Paris", "New York"],
            ["Mumbai", "Dubai", "New York"]] :=
  @gap_mono_le sampleDict "New York" 4 (k + 4) (by omega) "Mumbai" [] _ (by decide)

/-- C8, counterexample to the claim as stated: "Tokyo" is absent from the
adjacency map of the sample graph, yet `get_all_paths "Tokyo" "Tokyo"` returns
the non-empty list [["Tokyo"]] (the `start == end` base case fires before the
absence check), not the empty sequence. -/
theorem gap_absent_start_eq_end_cex :
    dictGet sampleDict "Tokyo" = none ∧
    get_all_paths sampleDict 5 "Tokyo" "Tokyo" [] = some [["Tokyo"]] ∧
    some [["Tokyo"]] ≠ some ([] : List (List String)) := by decide

/-- C8, amended: whenever `stop` is not reachable from `start`, any result that
`get_all_paths start stop` returns (for any fuel) is the empty sequence; and
when `start` is absent from the adjacency map and `start ≠ stop`, the call
returns the empty sequence (for every positive fuel). -/
theorem gap_empty_when_unreachable_or_absent (g : Dict) (start stop : String) :
    (¬ Reaches g start stop →
      ∀ fuel r, get_all_paths g fuel start stop [] = some r → r = []) ∧
    (dictGet g start = none → start ≠ stop →
      ∀ fuel, get_all_paths g (fuel + 1) start stop [] = some []) := by
  constructor
  · intro hnr fuel r hr
    exact gap_unreachable g stop fuel start [] r hnr hr
  · intro hd hne fuel
    simp [get_all_paths, hne, hd]

theorem gap_empty_when_unreachable_or_absent_witness :
    (([] : List (List String)) = []) ∧
    get_all_paths sampleDict 3 "Tokyo" "Mumbai" [] = some [] :=
  ⟨(gap_empty_when_unreachable_or_absent sampleDict "Toronto" "Mumbai").1
      not_reaches_toronto_mumbai 5 [] (by decide),
   (gap_empty_when_unreachable_or_absent sampleDict "Tokyo" "Mumbai").2
      (by decide) (by decide) 2⟩

/-- C9, counterexample to the claim as stated: at start = end = "Mumbai" the
enumeration returns the single path ["Mumbai"], whose minimum-length member is
["Mumbai"], yet `find_shortest_path` returns [], which is not among the
enumerated paths. -/
theorem fsp_start_eq_end_cex :
    find_shortest_path sampleDict 10 "Mumbai" "Mumbai" = some [] ∧
    get_all_paths sampleDict 10 "Mumbai" "Mumbai" [] = some [["Mumbai"]] ∧
    ([] : List String) ∉ [["Mumbai"]] := by decide

/-- C9, amended: for start ≠ end, `find_shortest_path` returns a minimum-length
path among the paths enumerated by `get_all_paths` (the empty list if there are
none); in particular on the sample graph `find_shortest_path "Mumbai" "New York"`
returns Mumbai→Paris→New York (length 3). -/
theorem fsp_min_length (g : Dict) (fuel : Nat) (start stop : String)
    (hne : start ≠ stop) (aps : List (List String))
    (hgap : get_all_paths g fuel start stop [] = some aps) :
    ((aps = [] → find_shortest_path g fuel start stop = some []) ∧
      (aps ≠ [] → ∃ r, find_shortest_path g fuel start stop = some r ∧
        r ∈ aps ∧ ∀ p ∈ aps, r.length ≤ p.length)) ∧
    find_shortest_path sampleDict 10 "Mumbai" "New York" =
      some ["Mumbai", "Paris", "New York"] := by
  refine ⟨⟨?_, ?_⟩, by decide⟩
  · intro hnil
    subst hnil
    simp [find_shortest_path, hne, hgap]
  · intro hnnil
    match aps with
    | [] => exact absurd rfl hnnil
    | p :: ps =>
      refine ⟨pickShortest p ps, ?_, ?_, ?_⟩
      · simp [find_shortest_path, hne, hgap]
      · exact (pickShortest_spec ps p).1
      · intro q hq
        rcases List.mem_cons.mp hq with h | h
        · exact h ▸ (pickShortest_spec ps p).2.1
        · exact (pickShortest_spec ps p).2.2 q h

theorem fsp_min_length_witness :
    ((([["Mumbai", "Paris", "Dubai", "New York"],
        ["Mumbai", "Paris", "New York"],
        ["Mumbai", "Dubai", "New York"]] : List (List String)) = [] →
        find_shortest_path sampleDict 10 "Mumbai" "New York" = some []) ∧
      (([["Mumbai", "Paris", "Dubai", "New York"],
         ["Mumbai", "Paris", "New York"],
         ["Mumbai", "Dubai", "New York"]] : List (List String)) ≠ [] →
        ∃ r, find_shortest_path sampleDict 10 "Mumbai" "New York" = some r ∧
          r ∈ [["Mumbai", "Paris", "Dubai", "New York"],
               ["Mumbai", "Paris", "New York"],
               ["Mumbai", "Dubai", "New York"]] ∧
          ∀ p ∈ [["Mumbai", "Paris", "Dubai", "New York"],
                 ["Mumbai", "Paris", "New York"],
                 ["Mumbai", "Dubai", "New York"]], r.length ≤ p.length)) ∧
    find_shortest_path sampleDict 10 "Mumbai" "New York" =
      some ["Mumbai", "Paris", "New York"] :=
  fsp_min_length sampleDict 10 "Mumbai" "New York" (by decide)
    [["Mumbai", "Paris", "Dubai", "New York"],
     ["Mumbai", "Paris", "New York"],
     ["Mumbai", "Dubai", "New York"]] (by decide)

/-- C10: `find_shortest_path s s` short-circuits to the empty list before any
path enumeration, even though `get_all_paths s s` returns the single trivial
path [s]. -/
theorem fsp_start_eq_end_shortcut (g : Dict) (s : String) (fuel : Nat) :
    find_shortest_path g fuel s s = some [] ∧
    get_all_paths g (fuel + 1) s s [] = some [[s]] := by
  constructor
  · simp [find_shortest_path]
  · simp [get_all_paths]

end PyGraph

namespace PyBST

theorem insert_node (l : Tree) (x : Int) (r : Tree) (d : Int) :
    insert (Tree.node l x r) d =
      if d = 0 then Tree.node l x r
      else if x = d then Tree.node l x r
      else if d < x then
        (match l with
         | Tree.nil => Tree.node (Tree.node Tree.nil d Tree.nil) x r
         | Tree.node _ _ _ => Tree.node (insert l d) x r)
      else
        (match r with
         | Tree.nil => Tree.node l x (Tree.node Tree.nil d Tree.nil)
         | Tree.node _ _ _ => Tree.node l x (insert r d)) := rfl

theorem mem_inorder_insert :
    ∀ (t : Tree) (d y : Int), y ∈ inorder (insert t d) → y ∈ inorder t ∨ y = d := by
  intro t
  induction t with
  | nil => intro d y hy; exact Or.inl hy
  | node l x r ihl ihr =>
    intro d y hy
    rw [insert_node] at hy
    by_cases hd0 : d = 0
    · rw [if_pos hd0] at hy; exact Or.inl hy
    rw [if_neg hd0] at hy
    by_cases hxd : x = d
    · rw [if_pos hxd] at hy; exact Or.inl hy
    rw [if_neg hxd] at hy
    by_cases hdx : d < x
    · rw [if_pos hdx] at hy
      cases l with
      | nil =>
        replace hy : y ∈ inorder (Tree.node (Tree.node Tree.nil d Tree.nil) x r) := hy
        simp only [inorder, List.mem_append, List.mem_cons, List.not_mem_nil,
          or_false, false_or, List.nil_append] at hy ⊢
        tauto
      | node a b c =>
        replace hy : y ∈ inorder (Tree.node (insert (Tree.node a b c) d) x r) := hy
        have h2 := ihl d y
        simp only [inorder, List.mem_append, List.mem_cons, List.not_mem_nil,
          or_false, false_or, List.nil_append] at hy h2 ⊢
        tauto
    · rw [if_neg hdx] at hy
      cases r with
      | nil =>
        replace hy : y ∈ inorder (Tree.node l x (Tree.node Tree.nil d Tree.nil)) := hy
        simp only [inorder, List.mem_append, List.mem_cons, List.not_mem_nil,
          or_false, false_or, List.nil_append] at hy ⊢
        tauto
      | node a b c =>
        replace hy : y ∈ inorder (Tree.node l x (insert (Tree.node a b c) d)) := hy
        have h2 := ihr d y
        simp only [inorder, List.mem_append, List.mem_cons, List.not_mem_nil,
          or_false, false_or, List.nil_append] at hy h2 ⊢
        tauto

theorem insert_IsBST :
    ∀ (t : Tree) (d : Int), IsBST t → IsBST (insert t d) := by
  intro t
  induction t with
  | nil => intro d _; exact trivial
  | node l x r ihl ihr =>
    intro d ht
    obtain ⟨hbl, hbr, hltl, hltr⟩ := ht
    rw [insert_node]
    by_cases hd0 : d = 0
    · rw [if_pos hd0]; exact ⟨hbl, hbr, hltl, hltr⟩
    rw [if_neg hd0]
    by_cases hxd : x = d
    · rw [if_pos hxd]; exact ⟨hbl, hbr, hltl, hltr⟩
    rw [if_neg hxd]
    by_cases hdx : d < x
    · rw [if_pos hdx]
      cases l with
      | nil =>
        show IsBST (Tree.node (Tree.node Tree.nil d Tree.nil) x r)
        refine ⟨⟨trivial, trivial, ?_, ?_⟩, hbr, ?_, hltr⟩
        · intro y hy; simp [inorder] at hy
        · intro y hy; simp [inorder] at hy
        · intro y hy
          simp only [inorder, List.nil_append, List.mem_cons, List.not_mem_nil,
            or_false] at hy
          omega
      | node a b c =>
        show IsBST (Tree.node (insert (Tree.node a b c) d) x r)
        refine ⟨ihl d hbl, hbr, ?_, hltr⟩
        intro y hy
        rcases mem_inorder_insert (Tree.node a b c) d y hy with h | h
        · exact hltl y h
        · omega
    · rw [if_neg hdx]
      have hxltd : x < d := by
        rcases lt_trichotomy x d with h | h | h
        · exact h
        · exact absurd h hxd
        · exact absurd h hdx
      cases r with
      | nil =>
        show IsBST (Tree.node l x (Tree.node Tree.nil d Tree.nil))
        refine ⟨hbl, ⟨trivial, trivial, ?_, ?_⟩, hltl, ?_⟩
        · intro y hy; simp [inorder] at hy
        · intro y hy; simp [inorder] at hy
        · intro y hy
          simp only [inorder, List.nil_append, List.mem_cons, List.not_mem_nil,
            or_false] at hy
          omega
      | node a b c =>
        show IsBST (Tree.node l x (insert (Tree.node a b c) d))
        refine ⟨hbl, ihr d hbr, hltl, ?_⟩
        intro y hy
        rcases mem_inorder_insert (Tree.node a b c) d y hy with h | h
        · exact hltr y h
        · omega

theorem inorder_sorted_of_IsBST :
    ∀ t : Tree, IsBST t → List.Sorted (· < ·) (inorder t) := by
  intro t
  induction t with
  | nil => intro _; exact List.sorted_nil
  | node l x r ihl ihr =>
    intro ht
    obtain ⟨hbl, hbr, hltl, hltr⟩ := ht
    show List.Pairwise (· < ·) (inorder l ++ x :: inorder r)
    rw [List.pairwise_append]
    refine ⟨ihl hbl, ?_, ?_⟩
    · rw [List.pairwise_cons]
      exact ⟨hltr, ihr hbr⟩
    · intro a ha b hb
      rcases List.mem_cons.mp hb with h | h
      · exact h ▸ hltl a ha
      · exact lt_trans (hltl a ha) (hltr b h)

theorem foldl_insert_IsBST (ds : List Int) :
    ∀ t : Tree, IsBST t → IsBST (ds.foldl insert t) := by
  induction ds with
  | nil => intro t ht; exact ht
  | cons d ds ih => intro t ht; exact ih (insert t d) (insert_IsBST t d ht)

/-- C3: for every BST created from a nonzero root and every sequence of insert
calls with nonzero arguments, the inorder traversal of the resulting tree is
sorted in (strictly) ascending order. -/
theorem bst_inorder_sorted (root : Int) (hroot : root ≠ 0) (ds : List Int)
    (hds : ∀ d ∈ ds, d ≠ 0) :
    List.Sorted (· < ·) (inorder (ds.foldl insert (mkBST root))) := by
  refine inorder_sorted_of_IsBST _ (foldl_insert_IsBST ds (mkBST root) ?_)
  refine ⟨trivial, trivial, ?_, ?_⟩
  · intro y hy; simp [mkBST, inorder] at hy
  · intro y hy; simp [mkBST, inorder] at hy

theorem bst_inorder_sorted_witness :
    List.Sorted (· < ·)
      (inorder ([2, 4, 3, 5, 29, 11, 23, 5].foldl insert (mkBST 21))) :=
  bst_inorder_sorted 21 (by decide) [2, 4, 3, 5, 29, 11, 23, 5] (by decide)

/-- C4: inserting a falsy (zero) value, or a value already present, into a
binary search tree is a silent no-op: the tree is returned unchanged. -/
theorem insert_noop_of_falsy_or_mem (t : Tree) (d : Int) (ht : IsBST t)
    (hd : d = 0 ∨ d ∈ inorder t) : insert t d = t := by
  induction t with
  | nil => rfl
  | node l x r ihl ihr =>
    obtain ⟨hbl, hbr, hltl, hltr⟩ := ht
    rw [insert_node]
    by_cases hd0 : d = 0
    · rw [if_pos hd0]
    rw [if_neg hd0]
    have hmem : d ∈ inorder (Tree.node l x r) := by
      rcases hd with h | h
      · exact absurd h hd0
      · exact h
    simp only [inorder, List.mem_append, List.mem_cons] at hmem
    rcases hmem with hml | hmx | hmr
    · have hdx : d < x := hltl d hml
      rw [if_neg (fun h : x = d => absurd (h ▸ hdx) (lt_irrefl d)), if_pos hdx]
      cases l with
      | nil => simp [inorder] at hml
      | node a b c =>
        show Tree.node (insert (Tree.node a b c) d) x r = Tree.node (Tree.node a b c) x r
        rw [ihl hbl (Or.inr hml)]
    · rw [if_pos hmx.symm]
    · have hxd : x < d := hltr d hmr
      rw [if_neg (fun h : x = d => absurd (h ▸ hxd) (lt_irrefl d)),
        if_neg (fun h : d < x => absurd (lt_trans h hxd) (lt_irrefl d))]
      cases r with
      | nil => simp [inorder] at hmr
      | node a b c =>
        show Tree.node l x (insert (Tree.node a b c) d) = Tree.node l x (Tree.node a b c)
        rw [ihr hbr (Or.inr hmr)]

theorem insert_noop_witness :
    insert (Tree.node (Tree.node Tree.nil 2 Tree.nil) 5 Tree.nil) 2 =
      Tree.node (Tree.node Tree.nil 2 Tree.nil) 5 Tree.nil :=
  insert_noop_of_falsy_or_mem (Tree.node (Tree.node Tree.nil 2 Tree.nil) 5 Tree.nil)
    2 (by decide) (by decide)

end PyBST

namespace PyHashMap

example : get (put (mkHashMap 10) 15 7) 15 = none := by decide

example : get (put (mkHashMap 10) 5 7) 5 = some 7 := by decide

theorem getChain_eq_find? (i : Nat) :
    ∀ c : Chain, getChain c i = (c.find? (fun n => n.key == i)).map Node.value := by
  intro c
  induction c with
  | nil => rfl
  | cons n rest ih =>
    by_cases h : n.key = i
    · simp [getChain, h, List.find?_cons_of_pos]
    · rw [getChain, if_neg h, List.find?_cons_of_neg _ (by simpa using h), ih]

/-- C5: `get k` returns the value of the first node in bucket `hash(k)` whose
stored key equals the bucket index `hash(k)` (the key/index comparison bug),
and `none` when no such node exists. -/
theorem get_compares_index (m : HashMap) (k : Nat) :
    get m k = getSpecFirstIndexMatch m k := by
  rw [get, getSpecFirstIndexMatch, getChain_eq_find?]

theorem chainKeys_cons (n : Node) (rest : Chain) :
    chainKeys (n :: rest) = n.key :: chainKeys rest := rfl

theorem putChain_none_iff : ∀ (c : Chain) (k : Nat) (v : Int),
    putChain c k v = none ↔ k ∉ chainKeys c := by
  intro c k v
  induction c with
  | nil => simp [putChain, chainKeys]
  | cons n rest ih =>
    rw [chainKeys_cons]
    by_cases h : n.key = k
    · simp [putChain, h]
    · cases hp : putChain rest k v with
      | none =>
        rw [putChain, if_neg h, hp]
        simp only [List.mem_cons, not_or]
        constructor
        · intro _
          exact ⟨fun hk => h hk.symm, (ih.mp hp)⟩
        · intro _; trivial
      | some c' =>
        rw [putChain, if_neg h, hp]
        simp only [List.mem_cons, not_or]
        constructor
        · intro habs; exact absurd habs (by simp)
        · intro ⟨_, hk⟩
          exact absurd hp (by rw [ih.mpr hk]; simp)

theorem removeChain_some_of_mem : ∀ (c : Chain) (k : Nat),
    k ∈ chainKeys c → ∃ c', removeChain c k = some c' := by
  intro c k
  induction c with
  | nil => intro h; simp [chainKeys] at h
  | cons n rest ih =>
    intro hmem
    by_cases h : n.key = k
    · exact ⟨rest, by rw [removeChain, if_pos h]⟩
    · rw [chainKeys_cons, List.mem_cons] at hmem
      rcases hmem with hk | hk
      · exact absurd hk.symm h
      · obtain ⟨c', hc'⟩ := ih hk
        exact ⟨n :: c', by rw [removeChain, if_neg h, hc']⟩

theorem removeChain_keys_erase : ∀ (c : Chain) (k : Nat) (c' : Chain),
    removeChain c k = some c' → chainKeys c' = (chainKeys c).erase k := by
  intro c k
  induction c with
  | nil => intro c' h; simp [removeChain] at h
  | cons n rest ih =>
    intro c' h
    rw [chainKeys_cons, List.erase_cons]
    by_cases hk : n.key = k
    · rw [removeChain, if_pos hk] at h
      rw [if_pos (by simpa using hk), ← Option.some_inj.mp h]
    · rw [removeChain, if_neg hk] at h
      cases hrc : removeChain rest k with
      | none => rw [hrc] at h; simp at h
      | some c'' =>
        rw [hrc] at h
        simp only [Option.some.injEq] at h
        rw [if_neg (by simpa using hk), ← h, chainKeys_cons, ih c'' hrc]

theorem getD_set_self {α : Type} (l : List α) (i : Nat) (a d : α)
    (h : i < l.length) : (l.set i a).getD i d = a := by
  rw [List.getD_eq_getElem?_getD, List.getElem?_set_self (by simpa using h)]
  rfl

theorem getD_set_ne {α : Type} (l : List α) (i j : Nat) (a d : α)
    (h : i ≠ j) : (l.set i a).getD j d = l.getD j d := by
  rw [List.getD_eq_getElem?_getD, List.getElem?_set_ne h, ← List.getD_eq_getElem?_getD]

theorem bucket_mk (s i : Nat) : bucket (mkHashMap s) i = [] := by
  rw [bucket, mkHashMap, List.getD_eq_getElem?_getD, List.getElem?_replicate]
  by_cases h : i < s
  · rw [if_pos h]; rfl
  · rw [if_neg h]; rfl

theorem put_size (m : HashMap) (k : Nat) (v : Int) :
    (put m k v).size = m.size ∧ (put m k v).buckets.length = m.buckets.length := by
  rw [put]
  cases putChain (bucket m (hmHash m k)) k v with
  | none => exact ⟨rfl, List.length_set m.buckets _ _⟩
  | some c => exact ⟨rfl, List.length_set m.buckets _ _⟩

theorem putAll_size : ∀ (kvs : List (Nat × Int)) (m : HashMap),
    (putAll m kvs).size = m.size ∧ (putAll m kvs).buckets.length = m.buckets.length := by
  intro kvs
  induction kvs with
  | nil => intro m; exact ⟨rfl, rfl⟩
  | cons p kvs ih =>
    intro m
    have h1 := put_size m p.1 p.2
    have h2 := ih (put m p.1 p.2)
    exact ⟨h2.1.trans h1.1, h2.2.trans h1.2⟩

theorem putAll_fresh_keys (s : Nat) (hs : 0 < s) :
    ∀ (kvs : List (Nat × Int)) (m : HashMap), m.size = s → m.buckets.length = s →
      (kvs.map Prod.fst).Nodup →
      (∀ p ∈ kvs, p.1 ∉ chainKeys (bucket m (p.1 % s))) →
      ∀ i, i < s →
        (chainKeys (bucket (putAll m kvs) i) : Multiset Nat) =
          (chainKeys (bucket m i) : Multiset Nat) +
            (((kvs.map Prod.fst).filter (fun k => k % s = i) : List Nat) : Multiset Nat) := by
  intro kvs
  induction kvs with
  | nil =>
    intro m _ _ _ _ i _
    simp [putAll]
  | cons p kvs ih =>
    intro m hsize hlen hnd hfresh i hi
    have hidx : hmHash m p.1 = p.1 % s := by rw [hmHash, hashOf, hsize]
    have hidx_lt : p.1 % s < s := Nat.mod_lt _ hs
    have hnone : putChain (bucket m (hmHash m p.1)) p.1 p.2 = none := by
      rw [putChain_none_iff, hidx]
      exact hfresh p (List.mem_cons_self p kvs)
    have hput : put m p.1 p.2 =
        ⟨m.size, m.buckets.set (hmHash m p.1) (⟨p.1, p.2⟩ :: bucket m (hmHash m p.1))⟩ := by
      rw [put, hnone]
    have hlen' : (put m p.1 p.2).buckets.length = s := by
      rw [hput]; simpa [List.length_set] using hlen
    have hsize' : (put m p.1 p.2).size = s := by rw [hput]; exact hsize
    have hbucket_eq : bucket (put m p.1 p.2) (p.1 % s) =
        ⟨p.1, p.2⟩ :: bucket m (p.1 % s) := by
      rw [hput, bucket, hidx]
      exact getD_set_self m.buckets (p.1 % s) _ [] (by rw [hlen]; exact hidx_lt)
    have hbucket_ne : ∀ j, j ≠ p.1 % s → bucket (put m p.1 p.2) j = bucket m j := by
      intro j hj
      rw [hput, bucket, hidx, getD_set_ne _ _ _ _ _ (fun h => hj h.symm), bucket]
    have hnd' : (kvs.map Prod.fst).Nodup := (List.nodup_cons.mp (by simpa using hnd)).2
    have hhead : p.1 ∉ kvs.map Prod.fst := (List.nodup_cons.mp (by simpa using hnd)).1
    have hfresh' : ∀ q ∈ kvs, q.1 ∉ chainKeys (bucket (put m p.1 p.2) (q.1 % s)) := by
      intro q hq
      by_cases hjq : q.1 % s = p.1 % s
      · rw [hjq, hbucket_eq, chainKeys_cons, List.mem_cons]
        rintro (h | h)
        · have h' : q.1 = p.1 := h
          exact hhead (h' ▸ List.mem_map_of_mem Prod.fst hq)
        · exact hfresh q (List.mem_cons_of_mem p hq) (hjq ▸ h)
      · rw [hbucket_ne _ hjq]
        exact hfresh q (List.mem_cons_of_mem p hq)
    have hrec := ih (put m p.1 p.2) hsize' hlen' hnd' hfresh' i hi
    have hputAll : putAll m (p :: kvs) = putAll (put m p.1 p.2) kvs := rfl
    rw [hputAll, hrec]
    by_cases hip : i = p.1 % s
    · subst hip
      rw [hbucket_eq, chainKeys_cons]
      have hfilter : (((p :: kvs).map Prod.fst).filter (fun k => k % s = p.1 % s)) =
          p.1 :: ((kvs.map Prod.fst).filter (fun k => k % s = p.1 % s)) := by
        simp only [List.map_cons]
        rw [List.filter_cons_of_pos (by simp)]
      rw [hfilter]
      simp only [← Multiset.cons_coe]
      rw [Multiset.cons_add, Multiset.add_cons]
    · rw [hbucket_ne _ (fun h => hip h)]
      have hfilter : (((p :: kvs).map Prod.fst).filter (fun k => k % s = i)) =
          ((kvs.map Prod.fst).filter (fun k => k % s = i)) := by
        simp only [List.map_cons]
        rw [List.filter_cons_of_neg (by simpa using fun h => hip h.symm)]
      rw [hfilter]

theorem removeAll_empties (s : Nat) (hs : 0 < s) :
    ∀ (ks : List Nat) (m : HashMap), m.size = s → m.buckets.length = s →
      (∀ i, i < s → (chainKeys (bucket m i) : Multiset Nat) =
        ((ks.filter (fun k => k % s = i) : List Nat) : Multiset Nat)) →
      (removeAll m ks).buckets = List.replicate s [] := by
  intro ks
  induction ks with
  | nil =>
    intro m hsize hlen hinv
    have hempty : ∀ b ∈ m.buckets, b = [] := by
      intro b hb
      obtain ⟨j, hj, hjb⟩ := List.mem_iff_getElem.mp hb
      have hbj : bucket m j = b := by
        rw [bucket, List.getD_eq_getElem?_getD, List.getElem?_eq_getElem hj, hjb]
        rfl
      have := hinv j (by rw [← hlen]; exact hj)
      rw [hbj] at this
      simp only [List.filter_nil, Multiset.coe_nil, Multiset.coe_eq_zero] at this
      rw [← List.map_eq_nil_iff (f := Node.key)]
      exact this
    rw [removeAll, List.foldl_nil]
    rw [List.eq_replicate_iff]
    exact ⟨hlen, hempty⟩
  | cons k ks ih =>
    intro m hsize hlen hinv
    have hidx : hmHash m k = k % s := by rw [hmHash, hashOf, hsize]
    have hidx_lt : k % s < s := Nat.mod_lt _ hs
    have hbk := hinv (k % s) hidx_lt
    have hfk : ((k :: ks).filter (fun j => j % s = k % s)) =
        k :: (ks.filter (fun j => j % s = k % s)) :=
      List.filter_cons_of_pos (by simp)
    rw [hfk] at hbk
    have hkmem : k ∈ chainKeys (bucket m (k % s)) := by
      have : (k : Nat) ∈ (chainKeys (bucket m (k % s)) : Multiset Nat) := by
        rw [hbk]; simp [← Multiset.cons_coe]
      simpa using this
    obtain ⟨c', hc'⟩ := removeChain_some_of_mem _ k hkmem
    have hrm : remove m k = (⟨m.size, m.buckets.set (k % s) c'⟩, true) := by
      rw [remove, hidx, hc']
    have hremoveAll : removeAll m (k :: ks) = removeAll (remove m k).1 ks := rfl
    rw [hremoveAll, hrm]
    apply ih
    · exact hsize
    · simpa [List.length_set] using hlen
    · intro i hi
      by_cases hik : i = k % s
      · subst hik
        have hbi : bucket ⟨m.size, m.buckets.set (k % s) c'⟩ (k % s) = c' := by
          rw [bucket]
          exact getD_set_self m.buckets (k % s) c' [] (by rw [hlen]; exact hidx_lt)
        rw [hbi, removeChain_keys_erase _ k c' hc', ← Multiset.coe_erase, hbk]
        rw [← Multiset.cons_coe, Multiset.erase_cons_head]
      · have hbi : bucket ⟨m.size, m.buckets.set (k % s) c'⟩ i = bucket m i := by
          rw [bucket, getD_set_ne _ _ _ _ _ (fun h => hik h.symm), bucket]
        rw [hbi, hinv i hi]
        have : ((k :: ks).filter (fun j => j % s = i)) =
            (ks.filter (fun j => j % s = i)) :=
          List.filter_cons_of_neg (by simpa using fun h => hik h.symm)
        rw [this]

/-- C6: putting every pair of a duplicate-free key list into a fresh map and
then removing every inserted key leaves every bucket equal to None (empty). -/
theorem put_remove_roundtrip_empty (s : Nat) (hs : 0 < s)
    (kvs : List (Nat × Int)) (hnd : (kvs.map Prod.fst).Nodup) :
    (removeAll (putAll (mkHashMap s) kvs) (kvs.map Prod.fst)).buckets =
      List.replicate s [] := by
  have hmk_size : (mkHashMap s).size = s := rfl
  have hmk_len : (mkHashMap s).buckets.length = s := by
    rw [mkHashMap]; exact List.length_replicate s []
  have hsz := putAll_size kvs (mkHashMap s)
  apply removeAll_empties s hs
  · rw [hsz.1]; exact hmk_size
  · rw [hsz.2]; exact hmk_len
  · intro i hi
    have := putAll_fresh_keys s hs kvs (mkHashMap s) hmk_size hmk_len hnd
      (fun p _ => by rw [bucket_mk]; simp [chainKeys]) i hi
    rw [this, bucket_mk]
    simp [chainKeys]

theorem put_remove_roundtrip_witness :
    (removeAll (putAll (mkHashMap 4) [(1, 10), (5, 20), (2, 30)])
        ([(1, 10), (5, 20), (2, 30)].map Prod.fst)).buckets =
      List.replicate 4 [] :=
  put_remove_roundtrip_empty 4 (by decide) [(1, 10), (5, 20), (2, 30)] (by decide)

end PyHashMap

namespace MinHeap

example : buildHeap [10, 4, 20, 0, 2] = [0, 2, 20, 10, 4] := by
  simp +decide [buildHeap, insert, siftUp, swap, nth, parent]

example : extract_min (buildHeap [10, 4, 20, 0, 2]) = (some 0, [2, 4, 20, 10]) := by
  simp +decide [buildHeap, insert, siftUp, swap, nth, parent, extract_min, siftDown,
    smallestIdx, leftChild, rightChild]

theorem parent_lt {j : Nat} (hj : 0 < j) : parent j < j := by
  simp only [parent]
  split
  · omega
  · omega

theorem parent_eq {j : Nat} (hj : 0 < j) : parent j = (j - 1) / 2 := by
  simp only [parent]
  split
  · omega
  · rfl

theorem parent_left (i : Nat) : parent (leftChild i) = i := by
  rw [leftChild, parent_eq (by omega)]
  omega

theorem parent_right (i : Nat) : parent (rightChild i) = i := by
  rw [rightChild, parent_eq (by omega)]
  omega

theorem child_cases {c i : Nat} (hc : 0 < c) (hp : parent c = i) :
    c = leftChild i ∨ c = rightChild i := by
  rw [parent_eq hc] at hp
  rw [leftChild, rightChild]
  omega

theorem nth_eq_getElem {h : List Int} {i : Nat} (hi : i < h.length) :
    nth h i = h[i] := by
  rw [nth, List.getD_eq_getElem?_getD, List.getElem?_eq_getElem hi]
  rfl

theorem nth_set_self {h : List Int} {i : Nat} (a : Int) (hi : i < h.length) :
    nth (h.set i a) i = a := by
  rw [nth, List.getD_eq_getElem?_getD, List.getElem?_set_self (by simpa using hi)]
  rfl

theorem nth_set_ne {h : List Int} {i j : Nat} (a : Int) (hij : i ≠ j) :
    nth (h.set i a) j = nth h j := by
  rw [nth, List.getD_eq_getElem?_getD, List.getElem?_set_ne hij,
    ← List.getD_eq_getElem?_getD, nth]

theorem length_swap (h : List Int) (i j : Nat) : (swap h i j).length = h.length := by
  simp [swap, List.length_set]

theorem nth_swap_snd {h : List Int} {i j : Nat} (hj : j < h.length) :
    nth (swap h i j) j = nth h i := by
  rw [swap, nth_set_self _ (by simpa [List.length_set] using hj)]

theorem nth_swap_fst {h : List Int} {i j : Nat} (hi : i < h.length) :
    nth (swap h i j) i = nth h j := by
  by_cases hij : i = j
  · subst hij
    rw [nth_swap_snd hi]
  · rw [swap, nth_set_ne _ (fun hji => hij hji.symm), nth_set_self _ hi]

theorem nth_swap_other {h : List Int} {i j k : Nat} (hki : k ≠ i) (hkj : k ≠ j) :
    nth (swap h i j) k = nth h k := by
  rw [swap, nth_set_ne _ (fun hjk => hkj hjk.symm), nth_set_ne _ (fun hik => hki hik.symm)]

theorem count_set_eq (h : List Int) (i : Nat) (a b : Int) (hi : i < h.length) :
    (h.set i a).count b =
      h.count b - (if h[i] = b then 1 else 0) + (if a = b then 1 else 0) := by
  rw [List.count_set a b h i hi]
  simp only [beq_iff_eq]

theorem count_pos_of_nth {h : List Int} {i : Nat} {b : Int} (hi : i < h.length)
    (hb : h[i] = b) : 0 < h.count b :=
  List.count_pos_iff.mpr (hb ▸ List.getElem_mem hi)

theorem count_swap (h : List Int) (i j : Nat) (hi : i < h.length)
    (hj : j < h.length) (b : Int) : (swap h i j).count b = h.count b := by
  have hlenj : j < (h.set i (nth h j)).length := by simpa [List.length_set] using hj
  rw [swap, count_set_eq _ j _ b hlenj, count_set_eq _ i _ b hi]
  simp only [nth_eq_getElem hi, nth_eq_getElem hj]
  by_cases hij : i = j
  · subst hij
    have hlen2 : i < (h.set i h[i]).length := by simpa [List.length_set] using hi
    have e3 : (h.set i h[i])[i] = h[i] := List.getElem_set_self hlen2
    simp only [e3]
    by_cases hb : h[i] = b
    · simp only [if_pos hb]
      have hc := count_pos_of_nth hi hb
      omega
    · simp only [if_neg hb]
      omega
  · have hlen2 : j < (h.set i h[j]).length := by simpa [List.length_set] using hj
    have e3 : (h.set i h[j])[j] = h[j] := List.getElem_set_ne hij hlen2
    simp only [e3]
    by_cases hbi : h[i] = b <;> by_cases hbj : h[j] = b
    · simp only [if_pos hbi, if_pos hbj]
      have hc := count_pos_of_nth hi hbi
      omega
    · simp only [if_pos hbi, if_neg hbj]
      have hc := count_pos_of_nth hi hbi
      omega
    · simp only [if_neg hbi, if_pos hbj]
      have hc := count_pos_of_nth hj hbj
      omega
    · simp only [if_neg hbi, if_neg hbj]
      omega

theorem swap_perm (h : List Int) (i j : Nat) (hi : i < h.length)
    (hj : j < h.length) : List.Perm (swap h i j) h :=
  List.perm_iff_count.mpr (count_swap h i j hi hj)

theorem siftUp_swap {h : List Int} {j : Nat} (hj : 0 < j)
    (hlt : nth h j < nth h (parent j)) :
    siftUp h j = siftUp (swap h (parent j) j) (parent j) := by
  rw [siftUp, dif_pos hj, if_pos hlt]

theorem siftUp_stop {h : List Int} {j : Nat} (hle : nth h (parent j) ≤ nth h j) :
    siftUp h j = h := by
  by_cases hj : 0 < j
  · rw [siftUp, dif_pos hj, if_neg (not_lt.mpr hle)]
  · rw [siftUp, dif_neg hj]

theorem siftUp_perm : ∀ (j : Nat) (h : List Int), j < h.length →
    List.Perm (siftUp h j) h := by
  intro j
  induction j using Nat.strong_induction_on with
  | _ j ih =>
    intro h hj
    by_cases hj0 : 0 < j
    · by_cases hlt : nth h j < nth h (parent j)
      · rw [siftUp_swap hj0 hlt]
        have hp : parent j < j := parent_lt hj0
        have hswap := swap_perm h (parent j) j (lt_trans hp hj) hj
        have hlen : (swap h (parent j) j).length = h.length := length_swap h _ _
        exact (ih (parent j) hp (swap h (parent j) j)
          (by rw [hlen]; exact lt_trans hp hj)).trans hswap
      · rw [siftUp_stop (not_lt.mp hlt)]
    · rw [siftUp, dif_neg hj0]

theorem siftUp_heap : ∀ (j : Nat) (h : List Int), j < h.length → UpInv h j →
    IsMinHeap (siftUp h j) := by
  intro j
  induction j using Nat.strong_induction_on with
  | _ j ih =>
    intro h hj hinv
    obtain ⟨ha, hb⟩ := hinv
    by_cases hj0 : 0 < j
    · by_cases hlt : nth h j < nth h (parent j)
      · rw [siftUp_swap hj0 hlt]
        have hplt : parent j < j := parent_lt hj0
        have hplen : parent j < h.length := lt_trans hplt hj
        have hswaplen : (swap h (parent j) j).length = h.length := length_swap h _ _
        have np : nth (swap h (parent j) j) (parent j) = nth h j := nth_swap_fst hplen
        have nj : nth (swap h (parent j) j) j = nth h (parent j) := nth_swap_snd hj
        have no : ∀ k, k ≠ parent j → k ≠ j → nth (swap h (parent j) j) k = nth h k :=
          fun k hkp hkj => nth_swap_other hkp hkj
        apply ih (parent j) hplt
        · rw [hswaplen]; exact hplen
        · constructor
          · intro k hk hk0 hkp
            rw [hswaplen] at hk
            by_cases hkj : k = j
            · subst hkj
              rw [show parent k = parent k from rfl, np, nj]
              exact le_of_lt hlt
            · by_cases hpkj : parent k = j
              · have hkgt : j < k := hpkj ▸ parent_lt hk0
                have hknp : k ≠ parent j := by omega
                rw [hpkj, nj, no k hknp hkj]
                exact hb k hk hk0 hpkj hj0
              · by_cases hpkp : parent k = parent j
                · rw [hpkp, np, no k hkp hkj]
                  have hak := ha k hk hk0 hkj
                  rw [hpkp] at hak
                  exact le_trans (le_of_lt hlt) hak
                · rw [no (parent k) hpkp hpkj, no k hkp hkj]
                  exact ha k hk hk0 hkj
          · intro c hc hc0 hpc hp0
            rw [hswaplen] at hc
            have hpp_lt : parent (parent j) < parent j := parent_lt hp0
            have hppj : parent (parent j) ≠ j := by omega
            have hppp : parent (parent j) ≠ parent j := by omega
            rw [no (parent (parent j)) hppp hppj]
            by_cases hcj : c = j
            · rw [hcj, nj]
              exact ha (parent j) hplen hp0 (by omega)
            · have hcgt : parent j < c := hpc ▸ parent_lt hc0
              have hcp : c ≠ parent j := by omega
              rw [no c hcp hcj]
              refine le_trans (ha (parent j) hplen hp0 (by omega)) ?_
              have := ha c hc hc0 hcj
              rwa [hpc] at this
      · rw [siftUp_stop (not_lt.mp hlt)]
        intro k hk hk0
        by_cases hkj : k = j
        · subst hkj; exact not_lt.mp hlt
        · exact ha k hk hk0 hkj
    · have hj0' : j = 0 := by omega
      subst hj0'
      rw [siftUp, dif_neg (by omega)]
      intro k hk hk0
      exact ha k hk hk0 (by omega)

theorem nth_append_lt {h : List Int} {x : Int} {i : Nat} (hi : i < h.length) :
    nth (h ++ [x]) i = nth h i := by
  rw [nth, nth, List.getD_eq_getElem?_getD, List.getD_eq_getElem?_getD,
    List.getElem?_append_left hi]

theorem insert_heap (h : List Int) (x : Int) (hh : IsMinHeap h) :
    IsMinHeap (insert h x) := by
  rw [insert]
  apply siftUp_heap h.length (h ++ [x]) (by simp)
  constructor
  · intro k hk hk0 hkj
    simp only [List.length_append, List.length_singleton] at hk
    have hklen : k < h.length := by omega
    have hpk : parent k < h.length := lt_trans (parent_lt hk0) hklen
    rw [nth_append_lt hklen, nth_append_lt hpk]
    exact hh k hklen hk0
  · intro c hc hc0 hpc _
    have hclt := parent_lt hc0
    rw [hpc] at hclt
    simp only [List.length_append, List.length_singleton] at hc
    exact absurd hc (by omega)

theorem insert_perm (h : List Int) (x : Int) :
    List.Perm (insert h x) (x :: h) := by
  rw [insert]
  exact (siftUp_perm h.length (h ++ [x]) (by simp)).trans (List.perm_append_singleton x h)

theorem root_min (h : List Int) (hh : IsMinHeap h) :
    ∀ j, j < h.length → nth h 0 ≤ nth h j := by
  intro j
  induction j using Nat.strong_induction_on with
  | _ j ih =>
    intro hj
    by_cases hj0 : 0 < j
    · have hp := parent_lt hj0
      exact le_trans (ih (parent j) hp (lt_trans hp hj)) (hh j hj hj0)
    · have hj0' : j = 0 := by omega
      subst hj0'
      exact le_refl _

theorem root_min_mem (h : List Int) (hh : IsMinHeap h) :
    ∀ x ∈ h, nth h 0 ≤ x := by
  intro x hx
  obtain ⟨j, hj, hjx⟩ := List.mem_iff_getElem.mp hx
  have := root_min h hh j hj
  rwa [nth_eq_getElem hj, hjx] at this

theorem smallestIdx_spec (h : List Int) (i : Nat) :
    (smallestIdx h i = i →
      (leftChild i < h.length → nth h i ≤ nth h (leftChild i)) ∧
      (rightChild i < h.length → nth h i ≤ nth h (rightChild i))) ∧
    (smallestIdx h i ≠ i →
      i < smallestIdx h i ∧ smallestIdx h i < h.length ∧
      parent (smallestIdx h i) = i ∧
      nth h (smallestIdx h i) < nth h i ∧
      ∀ c, c < h.length → parent c = i → 0 < c →
        nth h (smallestIdx h i) ≤ nth h c) := by
  have hLi : i < leftChild i := by rw [leftChild]; omega
  have hRi : i < rightChild i := by rw [rightChild]; omega
  by_cases hCL : leftChild i < h.length ∧ nth h (leftChild i) < nth h i
  · have hinner : (if leftChild i < h.length ∧ nth h (leftChild i) < nth h i
        then leftChild i else i) = leftChild i := if_pos hCL
    by_cases hCR : rightChild i < h.length ∧
        nth h (rightChild i) < nth h (leftChild i)
    · have hs : smallestIdx h i = rightChild i := by
        rw [smallestIdx, hinner, if_pos hCR]
      constructor
      · intro h0; rw [hs] at h0; omega
      · intro _
        rw [hs]
        refine ⟨hRi, hCR.1, parent_right i, lt_trans hCR.2 hCL.2, ?_⟩
        intro c hc hpc hc0
        rcases child_cases hc0 hpc with hcl | hcr
        · rw [hcl]; exact le_of_lt hCR.2
        · rw [hcr]
    · have hs : smallestIdx h i = leftChild i := by
        rw [smallestIdx, hinner, if_neg hCR]
      constructor
      · intro h0; rw [hs] at h0; omega
      · intro _
        rw [hs]
        refine ⟨hLi, hCL.1, parent_left i, hCL.2, ?_⟩
        intro c hc hpc hc0
        rcases child_cases hc0 hpc with hcl | hcr
        · rw [hcl]
        · rw [hcr]
          rcases not_and_or.mp hCR with hr | hr
          · exact absurd (hcr ▸ hc) hr
          · exact not_lt.mp hr
  · have hinner : (if leftChild i < h.length ∧ nth h (leftChild i) < nth h i
        then leftChild i else i) = i := if_neg hCL
    by_cases hCR : rightChild i < h.length ∧ nth h (rightChild i) < nth h i
    · have hs : smallestIdx h i = rightChild i := by
        rw [smallestIdx, hinner, if_pos hCR]
      constructor
      · intro h0; rw [hs] at h0; omega
      · intro _
        rw [hs]
        refine ⟨hRi, hCR.1, parent_right i, hCR.2, ?_⟩
        intro c hc hpc hc0
        rcases child_cases hc0 hpc with hcl | hcr
        · rw [hcl]
          refine le_of_lt (lt_of_lt_of_le hCR.2 ?_)
          rcases not_and_or.mp hCL with hl | hl
          · exact absurd (hcl ▸ hc) hl
          · exact not_lt.mp hl
        · rw [hcr]
    · have hs : smallestIdx h i = i := by
        rw [smallestIdx, hinner, if_neg hCR]
      constructor
      · intro _
        constructor
        · intro hllen
          rcases not_and_or.mp hCL with hl | hl
          · exact absurd hllen hl
          · exact not_lt.mp hl
        · intro hrlen
          rcases not_and_or.mp hCR with hr | hr
          · exact absurd hrlen hr
          · exact not_lt.mp hr
      · intro hne
        exact absurd hs hne

theorem siftDown_swap {h : List Int} {i : Nat} (hne : smallestIdx h i ≠ i) :
    siftDown h i = siftDown (swap h i (smallestIdx h i)) (smallestIdx h i) := by
  rw [siftDown, dif_pos hne]

theorem siftDown_stop {h : List Int} {i : Nat} (heq : smallestIdx h i = i) :
    siftDown h i = h := by
  rw [siftDown, dif_neg (not_not.mpr heq)]

theorem siftDown_perm : ∀ (n : Nat) (h : List Int) (i : Nat), h.length - i = n →
    List.Perm (siftDown h i) h := by
  intro n
  induction n using Nat.strong_induction_on with
  | _ n ih =>
    intro h i hn
    by_cases hne : smallestIdx h i ≠ i
    · obtain ⟨his, hslen, _, _, _⟩ := (smallestIdx_spec h i).2 hne
      rw [siftDown_swap hne]
      have hilen : i < h.length := lt_trans his hslen
      have hswlen : (swap h i (smallestIdx h i)).length = h.length := length_swap _ _ _
      have hm : (swap h i (smallestIdx h i)).length - smallestIdx h i < n := by
        rw [hswlen]; omega
      exact (ih _ hm _ _ rfl).trans (swap_perm h i (smallestIdx h i) hilen hslen)
    · rw [siftDown_stop (not_not.mp hne)]

theorem siftDown_heap : ∀ (n : Nat) (h : List Int) (i : Nat), h.length - i = n →
    DownInv h i → IsMinHeap (siftDown h i) := by
  intro n
  induction n using Nat.strong_induction_on with
  | _ n ih =>
    intro h i hn hinv
    obtain ⟨ha, hb⟩ := hinv
    by_cases hne : smallestIdx h i ≠ i
    · obtain ⟨his, hslen, hps, hlt, hall⟩ := (smallestIdx_spec h i).2 hne
      rw [siftDown_swap hne]
      have hilen : i < h.length := lt_trans his hslen
      have hswlen : (swap h i (smallestIdx h i)).length = h.length := length_swap _ _ _
      have ns : nth (swap h i (smallestIdx h i)) (smallestIdx h i) = nth h i :=
        nth_swap_snd hslen
      have ni : nth (swap h i (smallestIdx h i)) i = nth h (smallestIdx h i) :=
        nth_swap_fst hilen
      have no : ∀ k, k ≠ i → k ≠ smallestIdx h i →
          nth (swap h i (smallestIdx h i)) k = nth h k :=
        fun k h1 h2 => nth_swap_other h1 h2
      refine ih ((swap h i (smallestIdx h i)).length - smallestIdx h i)
        (by rw [hswlen]; omega) _ _ rfl ⟨?_, ?_⟩
      · intro k hk hk0 hpk
        rw [hswlen] at hk
        by_cases hks : k = smallestIdx h i
        · rw [hks, hps, ni, ns]
          exact le_of_lt hlt
        · by_cases hpki : parent k = i
          · have hki : k ≠ i := by
              have := parent_lt hk0
              omega
            rw [hpki, ni, no k hki hks]
            exact hall k hk hpki hk0
          · by_cases hki : k = i
            · rw [hki] at hk0 ⊢
              have hpil : parent i < i := parent_lt hk0
              have hpii : parent i ≠ i := by omega
              have hpis : parent i ≠ smallestIdx h i := by omega
              rw [no (parent i) hpii hpis, ni]
              exact hb (smallestIdx h i) hslen (by omega) hps hk0
            · rw [no (parent k) hpki hpk, no k hki hks]
              exact ha k hk hk0 hpki
      · intro c hc hc0 hpc hs0
        rw [hswlen] at hc
        rw [hps]
        have hcs : smallestIdx h i < c := hpc ▸ parent_lt hc0
        have hcne_s : c ≠ smallestIdx h i := by omega
        have hcne_i : c ≠ i := by omega
        rw [ni, no c hcne_i hcne_s]
        have hac := ha c hc hc0 (by rw [hpc]; omega)
        rw [hpc] at hac
        exact hac
    · have heq := not_not.mp hne
      rw [siftDown_stop heq]
      intro k hk hk0
      by_cases hpk : parent k = i
      · rw [hpk]
        rcases child_cases hk0 hpk with hkl | hkr
        · rw [hkl] at hk ⊢
          exact ((smallestIdx_spec h i).1 heq).1 hk
        · rw [hkr] at hk ⊢
          exact ((smallestIdx_spec h i).1 heq).2 hk
      · exact ha k hk hk0 hpk

theorem extract_min_cons₂ (x y : Int) (rest : List Int) :
    extract_min (x :: y :: rest) =
      (some x, siftDown (((y :: rest).getLastD 0) :: (y :: rest).dropLast) 0) := by
  show (some x, siftDown (((x :: y :: rest).dropLast).set 0 ((y :: rest).getLastD 0)) 0) = _
  rw [List.dropLast_cons₂, List.set_cons_zero]

theorem nth_zero_mem {h : List Int} (hne : h ≠ []) : nth h 0 ∈ h := by
  cases h with
  | nil => exact absurd rfl hne
  | cons x t =>
    rw [nth, List.getD_cons_zero]
    exact List.mem_cons_self x t

theorem h1_perm (y : Int) (rest : List Int) :
    List.Perm (((y :: rest).getLastD 0) :: (y :: rest).dropLast) (y :: rest) := by
  have hne : (y :: rest) ≠ [] := List.cons_ne_nil y rest
  have hlast : (y :: rest).getLastD 0 = (y :: rest).getLast hne := by
    rw [List.getLastD_eq_getLast?, List.getLast?_eq_getLast _ hne]
    rfl
  rw [hlast]
  refine (List.perm_append_singleton _ _).symm.trans ?_
  rw [List.dropLast_append_getLast hne]

theorem nth_h1 (x y : Int) (rest : List Int) :
    ∀ m, 0 < m → m < (((y :: rest).getLastD 0) :: (y :: rest).dropLast).length →
      nth (((y :: rest).getLastD 0) :: (y :: rest).dropLast) m =
        nth (x :: y :: rest) m := by
  intro m hm0 hmlen
  obtain ⟨m', rfl⟩ : ∃ m', m = m' + 1 := ⟨m - 1, by omega⟩
  rw [nth, List.getD_cons_succ, nth, List.getD_cons_succ]
  simp only [List.length_cons] at hmlen
  have hm' : m' < (y :: rest).dropLast.length := by omega
  have hm'2 : m' < (y :: rest).length := by
    rw [List.length_dropLast] at hm'
    simp only [List.length_cons] at hm' ⊢
    omega
  rw [List.getD_eq_getElem?_getD, List.getElem?_eq_getElem hm',
    List.getD_eq_getElem?_getD, List.getElem?_eq_getElem hm'2]
  simp only [Option.getD_some]
  exact List.getElem_dropLast _ m' hm'

theorem h1_downInv (x y : Int) (rest : List Int)
    (hh : IsMinHeap (x :: y :: rest)) :
    DownInv (((y :: rest).getLastD 0) :: (y :: rest).dropLast) 0 := by
  constructor
  · intro k hk hk0 hpk
    have hpk0 : 0 < parent k := Nat.pos_of_ne_zero hpk
    have hplt : parent k < k := parent_lt hk0
    rw [nth_h1 x y rest k hk0 hk, nth_h1 x y rest (parent k) hpk0 (lt_trans hplt hk)]
    apply hh k ?_ hk0
    simp only [List.length_cons, List.length_dropLast] at hk ⊢
    omega
  · intro c hc hc0 hpc h00
    exact absurd h00 (lt_irrefl 0)

theorem extract_min_fst {h : List Int} (hne : h ≠ []) :
    (extract_min h).1 = some (nth h 0) := by
  match h with
  | [] => exact absurd rfl hne
  | [x] => rfl
  | x :: y :: rest => rfl

theorem extract_min_perm {h : List Int} (hne : h ≠ []) :
    List.Perm (extract_min h).2 (h.erase (nth h 0)) := by
  match h with
  | [] => exact absurd rfl hne
  | [x] =>
    show List.Perm ([] : List Int) ([x].erase x)
    rw [List.erase_cons_head]
  | x :: y :: rest =>
    rw [extract_min_cons₂]
    show List.Perm (siftDown (((y :: rest).getLastD 0) :: (y :: rest).dropLast) 0)
      ((x :: y :: rest).erase (nth (x :: y :: rest) 0))
    have hx : nth (x :: y :: rest) 0 = x := rfl
    rw [hx, List.erase_cons_head]
    exact (siftDown_perm _ _ 0 rfl).trans (h1_perm y rest)

theorem extract_min_heap {h : List Int} (hh : IsMinHeap h) :
    IsMinHeap (extract_min h).2 := by
  match h with
  | [] =>
    intro k hk hk0
    simp [extract_min] at hk
  | [x] =>
    intro k hk hk0
    simp [extract_min] at hk
  | x :: y :: rest =>
    have hd := siftDown_heap _ _ 0 rfl (h1_downInv x y rest hh)
    rw [extract_min_cons₂]
    exact hd

theorem extract_min_len {h : List Int} (hne : h ≠ []) :
    (extract_min h).2.length = h.length - 1 := by
  rw [(extract_min_perm hne).length_eq]
  exact List.length_erase_of_mem (nth_zero_mem hne)

theorem buildHeap_heap (xs : List Int) : IsMinHeap (buildHeap xs) := by
  rw [buildHeap]
  have hstep : ∀ (l acc : List Int), IsMinHeap acc → IsMinHeap (l.foldl insert acc) := by
    intro l
    induction l with
    | nil => intro acc h; exact h
    | cons a l ih => intro acc h; exact ih (insert acc a) (insert_heap acc a h)
  apply hstep
  intro k hk hk0
  simp at hk

theorem buildHeap_perm (xs : List Int) : List.Perm (buildHeap xs) xs := by
  have hstep : ∀ (l acc : List Int), List.Perm (l.foldl insert acc) (acc ++ l) := by
    intro l
    induction l with
    | nil => intro acc; simp
    | cons a l ih =>
      intro acc
      refine (ih (insert acc a)).trans ?_
      refine (List.Perm.append_right l (insert_perm acc a)).trans ?_
      exact List.perm_middle.symm
  simpa using hstep xs []

theorem extractList_sorted_perm : ∀ (n : Nat) (h : List Int), IsMinHeap h →
    h.length = n →
    List.Perm (extractList n h) h ∧ List.Sorted (· ≤ ·) (extractList n h) := by
  intro n
  induction n with
  | zero =>
    intro h _ hlen
    have h0 : h = [] := List.length_eq_zero.mp hlen
    subst h0
    exact ⟨List.Perm.refl _, List.sorted_nil⟩
  | succ n ih =>
    intro h hh hlen
    have hne : h ≠ [] := by
      intro h0
      rw [h0] at hlen
      simp at hlen
    have hfst := extract_min_fst hne
    have hperm := extract_min_perm hne
    have hheap := extract_min_heap hh
    have hlen' : (extract_min h).2.length = n := by
      rw [extract_min_len hne, hlen]
      omega
    obtain ⟨ihp, ihs⟩ := ih (extract_min h).2 hheap hlen'
    have hsplit : extract_min h = (some (nth h 0), (extract_min h).2) := by
      rw [← hfst]
    have hstep : extractList (n + 1) h = nth h 0 :: extractList n (extract_min h).2 := by
      rw [extractList, hsplit]
    rw [hstep]
    constructor
    · refine (List.Perm.cons _ ihp).trans ?_
      refine (List.Perm.cons _ hperm).trans ?_
      exact (List.perm_cons_erase (nth_zero_mem hne)).symm
    · rw [List.sorted_cons]
      refine ⟨?_, ihs⟩
      intro b hb
      have hbmem : b ∈ (extract_min h).2 := ihp.mem_iff.mp hb
      have hbmem2 : b ∈ h.erase (nth h 0) := hperm.mem_iff.mp hbmem
      exact root_min_mem h hh b (List.mem_of_mem_erase hbmem2)

/-- C1: inserting any finite sequence of integers into a fresh MinHeap and
then calling extract_min once per inserted element yields exactly the
inserted values (a permutation) in non-decreasing order. -/
theorem minheap_heapsort (xs : List Int) :
    List.Perm (extractList xs.length (buildHeap xs)) xs ∧
    List.Sorted (· ≤ ·) (extractList xs.length (buildHeap xs)) := by
  have hlen : (buildHeap xs).length = xs.length := (buildHeap_perm xs).length_eq
  obtain ⟨hp, hs⟩ := extractList_sorted_perm xs.length (buildHeap xs)
    (buildHeap_heap xs) hlen
  exact ⟨hp.trans (buildHeap_perm xs), hs⟩

/-- C2: on a non-empty min-heap, extract_min returns the element previously
at the root, which is the minimum, and removes exactly that element; on the
empty heap it returns None. -/
theorem minheap_extract_spec (h : List Int) (hne : h ≠ []) (hheap : IsMinHeap h) :
    (extract_min h).1 = some (nth h 0) ∧
    List.Perm (extract_min h).2 (h.erase (nth h 0)) ∧
    (∀ x ∈ h, nth h 0 ≤ x) ∧
    extract_min ([] : List Int) = (none, []) :=
  ⟨extract_min_fst hne, extract_min_perm hne, root_min_mem h hheap, rfl⟩

theorem minheap_extract_spec_witness :
    (extract_min [(2 : Int), 5, 3]).1 = some (nth [(2 : Int), 5, 3] 0) ∧
    List.Perm (extract_min [(2 : Int), 5, 3]).2
      ([(2 : Int), 5, 3].erase (nth [(2 : Int), 5, 3] 0)) ∧
    (∀ x ∈ [(2 : Int), 5, 3], nth [(2 : Int), 5, 3] 0 ≤ x) ∧
    extract_min ([] : List Int) = (none, []) :=
  minheap_extract_spec [2, 5, 3] (by decide) (by decide)

end MinHeap

